import Mathlib

/-!
# Verification of the RustCrypto MACs construction layer

A shallow embedding of the MAC construction layer of the RustCrypto/MACs
repository: CMAC, CBC-MAC, PMAC, HMAC key derivation, KMAC integer
encodings and DAA.  Blocks and byte strings are modelled as `List Nat`
(each entry a byte value), block ciphers and hashes as abstract functions,
and machine integers as `Nat` with explicit reduction modulo `2 ^ w`.
-/

/-! ## Bytes and blocks

Blocks are byte lists; `xorB` is the `xor` helper used throughout
`cmac/src/block_api.rs`, `cbc-mac/src/block_api.rs` and
`pmac/src/block_api.rs` (`for i in 0..N { buf[i] ^= data[i] }`),
`zeroBlock` is `Block::default()`, and `setXor l i v` is the in-place
update `l[i] ^= v`. -/

def xorB (a b : List Nat) : List Nat := List.zipWith (fun x y => x ^^^ y) a b

def zeroBlock (n : Nat) : List Nat := List.replicate n 0

def setXor (l : List Nat) (i : Nat) (v : Nat) : List Nat :=
  l.set i (l.getD i 0 ^^^ v)

theorem xorB_nil_left (b : List Nat) : xorB [] b = [] := rfl

theorem xorB_zero_right (a : List Nat) (k : Nat) :
    xorB a (zeroBlock k) = a.take k := by
  induction a generalizing k with
  | nil => simp [xorB]
  | cons x xs ih =>
    cases k with
    | zero => simp [xorB, zeroBlock]
    | succ k =>
      simp only [zeroBlock, List.replicate, xorB, List.zipWith, List.take]
      rw [show x ^^^ 0 = x from Nat.xor_zero x]
      exact congrArg (x :: ·) (ih k)

theorem xorB_zero_right_of_le (a : List Nat) (k : Nat) (h : a.length ≤ k) :
    xorB a (zeroBlock k) = a := by
  rw [xorB_zero_right, List.take_of_length_le h]

/-! ## HMAC derived key (`hmac/src/utils.rs`, `get_der_key`)

The Rust code starts from `Block::<D>::default()` (a zero block of the
hash's block size) and copies `key`, the digest of `key`, or a truncated
digest into it, depending on the lengths.  `hmacSetSlice der data` models
`der[..data.len()].copy_from_slice(data)` for `data.length ≤ der.length`. -/

def hmacSetSlice (der : List Nat) (data : List Nat) : List Nat :=
  data ++ der.drop data.length

def get_der_key (blockSize : Nat) (digest : List Nat → List Nat)
    (key : List Nat) : List Nat :=
  let der_key := zeroBlock blockSize
  if key.length ≤ der_key.length then
    hmacSetSlice der_key key
  else
    let hash := digest key
    if hash.length ≤ der_key.length then
      hmacSetSlice der_key hash
    else
      hash.take der_key.length

theorem hmacSetSlice_zero (bs : Nat) (data : List Nat) :
    hmacSetSlice (zeroBlock bs) data = data ++ zeroBlock (bs - data.length) := by
  unfold hmacSetSlice zeroBlock
  rw [List.drop_replicate]

/-- C5: HMAC's derived key is the key zero-padded to the block size when the
key fits in one hash block, otherwise the digest of the key zero-padded to
the block size, and—when the digest itself is longer than the block—the
digest truncated to the block size; in every case the result has exactly
the block length, so the derivation is total (no panic, no out-of-bounds
copy) for any key length. -/
theorem hmac_der_key_spec (blockSize : Nat) (digest : List Nat → List Nat)
    (key : List Nat) :
    get_der_key blockSize digest key =
      (if key.length ≤ blockSize then
        key ++ zeroBlock (blockSize - key.length)
      else if (digest key).length ≤ blockSize then
        digest key ++ zeroBlock (blockSize - (digest key).length)
      else (digest key).take blockSize) ∧
    (get_der_key blockSize digest key).length = blockSize := by
  have hlen : (zeroBlock blockSize).length = blockSize := by
    simp [zeroBlock]
  constructor
  · simp only [get_der_key, hlen]
    by_cases h1 : key.length ≤ blockSize
    · rw [if_pos h1, if_pos h1, hmacSetSlice_zero _ _]
    · rw [if_neg h1, if_neg h1]
      by_cases h2 : (digest key).length ≤ blockSize
      · rw [if_pos h2, if_pos h2, hmacSetSlice_zero _ _]
      · rw [if_neg h2, if_neg h2]
  · simp only [get_der_key, hlen]
    by_cases h1 : key.length ≤ blockSize
    · rw [if_pos h1, hmacSetSlice_zero _ _]
      simp [zeroBlock]
      omega
    · rw [if_neg h1]
      by_cases h2 : (digest key).length ≤ blockSize
      · rw [if_pos h2, hmacSetSlice_zero _ _]
        simp [zeroBlock]
        omega
      · rw [if_neg h2]
        simp only [List.length_take]
        omega

/-! ## CMAC finalize (`cmac/src/block_api.rs`, `CmacCore::finalize_fixed_core`)

The CMAC core holds a chaining `state`; the buffer is `Lazy`, so at
finalize time it holds the unprocessed tail of the message, whose length
`pos` satisfies `0 ≤ pos ≤ n` (`pos = n` exactly when the message is
non-empty and block aligned).  `buffer.pad_with_zeros()` yields the tail
zero-padded to a full block. -/

def cmacFinalizeCore (E dbl : List Nat → List Nat) (n : Nat)
    (state tail : List Nat) : List Nat :=
  let pos := tail.length
  let buf := tail ++ zeroBlock (n - pos)
  let subkey := E (zeroBlock n)
  let key1 := dbl subkey
  let st1 := xorB state buf
  let st2 :=
    if pos = buf.length then xorB st1 key1
    else
      let key2 := dbl key1
      xorB (setXor st1 pos 0x80) key2
  E st2

theorem xorB_cons (a b : Nat) (as bs : List Nat) :
    xorB (a :: as) (b :: bs) = (a ^^^ b) :: xorB as bs := rfl

/-- Setting `0x80` into position `t.length` of `s ⊕ (t ++ 0 :: rest)` turns the
padding byte into `0x80`. -/
theorem setXor_xorB_pad (s t rest : List Nat) (v : Nat)
    (h : t.length < s.length) :
    setXor (xorB s (t ++ 0 :: rest)) t.length v =
      xorB s (t ++ v :: rest) := by
  induction t generalizing s with
  | nil =>
    cases s with
    | nil => simp at h
    | cons a as =>
      simp only [List.nil_append, xorB_cons, setXor, List.length_nil,
        List.getD_cons_zero, List.set_cons_zero, Nat.xor_zero]
  | cons x ts ih =>
    cases s with
    | nil => simp at h
    | cons a as =>
      have h' : ts.length < as.length := by
        simpa using h
      have key := ih as h'
      simp only [setXor] at key
      simp only [List.cons_append, xorB_cons, setXor, List.length_cons,
        List.getD_cons_succ, List.set_cons_succ]
      exact congrArg _ key

/-- C1: for every cipher (abstract `E`) and every buffered tail, CMAC's
finalize derives `K1 = dbl (E 0)` and `K2 = dbl K1` at finalize time and
outputs `E (state ⊕ tail ⊕ K1)` when the tail fills a block, otherwise
`E (state ⊕ (tail ++ 0x80 ++ zeros) ⊕ K2)`; the outer encryption is applied
unconditionally in both branches, covering the empty and block-aligned
messages (tail length `0` resp. `n`). -/
theorem cmac_finalize_spec (E dbl : List Nat → List Nat) (n : Nat)
    (state tail : List Nat) (hs : state.length = n) (ht : tail.length ≤ n) :
    cmacFinalizeCore E dbl n state tail =
      if tail.length = n then
        E (xorB (xorB state tail) (dbl (E (zeroBlock n))))
      else
        E (xorB (xorB state (tail ++ 0x80 :: zeroBlock (n - tail.length - 1)))
            (dbl (dbl (E (zeroBlock n))))) := by
  have hbuf : (tail ++ zeroBlock (n - tail.length)).length = n := by
    simp [zeroBlock]
    omega
  by_cases hfull : tail.length = n
  · have hz : zeroBlock (n - tail.length) = [] := by
      rw [hfull]
      simp [zeroBlock]
    simp only [cmacFinalizeCore, hz, List.append_nil, if_true]
    rw [if_pos hfull]
  · have hlt : tail.length < n := lt_of_le_of_ne ht hfull
    have hz : zeroBlock (n - tail.length) = 0 :: zeroBlock (n - tail.length - 1) := by
      unfold zeroBlock
      rw [show n - tail.length = (n - tail.length - 1) + 1 by omega]
      rfl
    simp only [cmacFinalizeCore]
    rw [if_neg (fun hc => hfull (hc.trans hbuf)), if_neg hfull, hz,
      setXor_xorB_pad state tail (zeroBlock (n - tail.length - 1)) 0x80 (by omega)]

/-- Witness for C1, at block size `n = 4` with the identity as cipher and
doubling, a one-byte tail: the padded branch fires and the final encryption
is applied. -/
theorem cmac_finalize_spec_witness :
    cmacFinalizeCore id id 4 [1, 2, 3, 4] [5] =
      if [(5 : Nat)].length = 4 then
        id (xorB (xorB [1, 2, 3, 4] [5]) (id (id (zeroBlock 4))))
      else
        id (xorB (xorB [1, 2, 3, 4] ([5] ++ 0x80 :: zeroBlock (4 - [5].length - 1)))
            (id (id (id (zeroBlock 4))))) :=
  cmac_finalize_spec id id 4 [1, 2, 3, 4] [5] (by decide) (by decide)

/-! ## CBC-MAC (`cbc-mac/src/block_api.rs`)

`CbcMacCore` uses an `Eager` buffer: every completed block is folded into
the chaining state during `update`, so at finalize time the buffer holds
the remainder `msg.length % n` (strictly less than `n`).  `cbcFoldState`
models the front-end buffering plus `update_blocks`
(`state = Encrypt(state ⊕ block)` per full block) and returns the chaining
state together with the unprocessed tail; `cbcMacTag` adds
`finalize_fixed_core`, which encrypts the zero-padded tail only when the
buffer position is non-zero. -/

def cbcFoldState (E : List Nat → List Nat) (n : Nat) :
    List Nat → List Nat → List Nat × List Nat := fun state msg =>
  if _h : 0 < n ∧ n ≤ msg.length then
    cbcFoldState E n (E (xorB state (msg.take n))) (msg.drop n)
  else
    (state, msg)
termination_by _state msg => msg.length
decreasing_by
  simp only [List.length_drop]
  omega

def cbcMacTag (E : List Nat → List Nat) (n : Nat) (msg : List Nat) : List Nat :=
  let res := cbcFoldState E n (zeroBlock n) msg
  if res.2.length ≠ 0 then E (xorB res.1 (res.2 ++ zeroBlock (n - res.2.length)))
  else res.1

/-- The tail left by the eager buffering has length `msg.length % n`. -/
theorem cbcFoldState_tail_length (E : List Nat → List Nat) (n : Nat)
    (hn : 0 < n) :
    ∀ (k : Nat) (state msg : List Nat), msg.length ≤ k →
      ((cbcFoldState E n state msg).2).length = msg.length % n := by
  intro k
  induction k with
  | zero =>
    intro state msg hk
    rw [cbcFoldState]
    have hlen : msg.length = 0 := by omega
    rw [dif_neg (by omega)]
    simp [hlen, Nat.zero_mod]
  | succ k ih =>
    intro state msg hk
    rw [cbcFoldState]
    by_cases h : n ≤ msg.length
    · rw [dif_pos ⟨hn, h⟩]
      have := ih (E (xorB state (msg.take n))) (msg.drop n)
        (by simp [List.length_drop]; omega)
      rw [this, List.length_drop, (Nat.mod_eq_sub_mod h).symm]
    · rw [dif_neg (by tauto)]
      show msg.length = msg.length % n
      exact (Nat.mod_eq_of_lt (by omega)).symm

/-- C3: for a non-empty block-aligned message, CBC-MAC performs no extra
encryption at finalize: the guarded `Encrypt(state ⊕ padded tail)` step is
skipped because the eager buffer is empty, and the tag is exactly the
chaining state reached after folding in the last full block. -/
theorem cbc_mac_aligned_no_extra_encrypt (E : List Nat → List Nat) (n : Nat)
    (msg : List Nat) (hn : 0 < n) (hmod : msg.length % n = 0)
    (hne : msg ≠ []) :
    cbcMacTag E n msg = (cbcFoldState E n (zeroBlock n) msg).1 := by
  have htail := cbcFoldState_tail_length E n hn msg.length (zeroBlock n) msg le_rfl
  rw [hmod] at htail
  unfold cbcMacTag
  simp only [htail, ne_eq, not_true_eq_false, if_false, not_false_eq_true]

/-- Witness for C3 at block size `2` with the identity cipher and the
four-byte (two-block) message `[1, 2, 3, 4]`. -/
theorem cbc_mac_aligned_no_extra_encrypt_witness :
    cbcMacTag id 2 [1, 2, 3, 4] = (cbcFoldState id 2 (zeroBlock 2) [1, 2, 3, 4]).1 :=
  cbc_mac_aligned_no_extra_encrypt id 2 [1, 2, 3, 4] (by decide) (by decide)
    (by decide)

/-! ## PMAC (`pmac/src/block_api.rs`)

`PmacState` carries the running `tag`, the running `offset` and the
1-based block `counter`; the table `l_cache` (`l_cache[i] = dbl^i(L0)` for
`L0 = Encrypt(zero_block)`) and `l_inv = inv_dbl(L0)` are computed by
`inner_init`.  `ntz` is `usize::trailing_zeros` restricted to positive
counters. -/

def ntz (n : Nat) : Nat :=
  if n = 0 then 0
  else if n % 2 = 1 then 0
  else ntz (n / 2) + 1
termination_by n
decreasing_by
  omega

/-- The `l_cache` built by `PmacCore::inner_init`: starting from
`l = Encrypt(zero_block)`, entry `i` receives the current `l` and `l` is
replaced by `dbl l` (the `map`/`mem::replace` loop). -/
def lCacheBuild (dbl : List Nat → List Nat) (l0 : List Nat) :
    Nat → List (List Nat)
  | 0 => []
  | k + 1 => l0 :: lCacheBuild dbl (dbl l0) k

structure PmacSt where
  tag : List Nat
  offset : List Nat
  counter : Nat
deriving DecidableEq

/-- `PmacState::next_offset`: read `ntz(counter)`, bump the counter, fetch
`l_cache[ntz]` if it is in range and otherwise double the last table entry
`ntz - (LC_SIZE - 1)` further times, then fold the mask into the running
offset and return it. -/
def pmacNextOffset (dbl : List Nat → List Nat) (cache : List (List Nat))
    (lc : Nat) (s : PmacSt) : List Nat × PmacSt :=
  let nt := ntz s.counter
  let l :=
    if nt < lc then cache.getD nt []
    else dbl^[nt - (lc - 1)] (cache.getD (lc - 1) [])
  let off := xorB s.offset l
  (off, { s with offset := off, counter := s.counter + 1 })

theorem lCacheBuild_getD (dbl : List Nat → List Nat) (l0 : List Nat)
    (k i : Nat) (h : i < k) :
    (lCacheBuild dbl l0 k).getD i [] = dbl^[i] l0 := by
  induction k generalizing l0 i with
  | zero => omega
  | succ k ih =>
    cases i with
    | zero => rfl
    | succ i =>
      show (lCacheBuild dbl (dbl l0) k).getD i [] = dbl^[i + 1] l0
      rw [ih (dbl l0) i (by omega), Function.iterate_succ_apply]

/-- C2: with the table built by `inner_init`, the mask folded into the
offset for 1-based counter value `c` is always `dbl^[ntz c] L0` — both on
the in-table path and on the overflow path that doubles the last cached
entry `dbl^[LC_SIZE-1] L0` a further `ntz c - (LC_SIZE - 1)` times — for
every table size `LC_SIZE ≥ 1`; the counter is incremented and the offset
becomes `offset ⊕ dbl^[ntz c] L0`. -/
theorem pmac_next_offset_mask (dbl : List Nat → List Nat) (l0 : List Nat)
    (lc : Nat) (s : PmacSt) (hlc : 1 ≤ lc) (hc : 1 ≤ s.counter) :
    pmacNextOffset dbl (lCacheBuild dbl l0 lc) lc s =
      (xorB s.offset (dbl^[ntz s.counter] l0),
        { s with offset := xorB s.offset (dbl^[ntz s.counter] l0),
                 counter := s.counter + 1 }) := by
  simp only [pmacNextOffset]
  by_cases h : ntz s.counter < lc
  · rw [if_pos h, lCacheBuild_getD dbl l0 lc _ h]
  · rw [if_neg h, lCacheBuild_getD dbl l0 lc (lc - 1) (by omega)]
    rw [← Function.iterate_add_apply]
    rw [show ntz s.counter - (lc - 1) + (lc - 1) = ntz s.counter by omega]

/-- Witness for C2: table size 1, counter 2 (`ntz 2 = 1`), so the overflow
path doubles the single cached entry once. -/
theorem pmac_next_offset_mask_witness :
    pmacNextOffset (fun l => List.map (fun x => 2 * x) l)
        (lCacheBuild (fun l => List.map (fun x => 2 * x) l) [1] 1) 1
        ⟨[0], [5], 2⟩ =
      (xorB [5] ((fun l => List.map (fun x => 2 * x) l)^[ntz 2] [1]),
        ⟨[0], xorB [5] ((fun l => List.map (fun x => 2 * x) l)^[ntz 2] [1]), 3⟩) :=
  pmac_next_offset_mask (fun l => List.map (fun x => 2 * x) l) [1] 1
    ⟨[0], [5], 2⟩ (by decide) (by decide)

/-- `PmacCore::inner_init`: encrypt the zero block to get `L0`, store
`l_inv = inv_dbl L0`, build the cache, and start with zero `tag` and
`offset` and `counter = 1`.  Returns the cache and `l_inv` next to the
mutable state. -/
def pmacInit (E dbl inv_dbl : List Nat → List Nat) (n : Nat) (lc : Nat) :
    (List (List Nat) × List Nat) × PmacSt :=
  let l := E (zeroBlock n)
  let l_inv := inv_dbl l
  let l_cache := lCacheBuild dbl l lc
  ((l_cache, l_inv), { tag := zeroBlock n, offset := zeroBlock n, counter := 1 })

/-- `PmacCore::finalize_fixed_core`: with `pos` the buffered tail length and
`buf` the zero-padded tail, either fold in the full block and `l_inv`, or
set the `0x80` marker at `pos` and fold in the padded block; the output is
always `Encrypt(tag)`. -/
def pmacFinalizeCore (E : List Nat → List Nat) (n : Nat)
    (tag l_inv : List Nat) (tail : List Nat) : List Nat :=
  let pos := tail.length
  let buf := tail ++ zeroBlock (n - pos)
  let t :=
    if pos = buf.length then xorB (xorB tag buf) l_inv
    else xorB (setXor tag pos 0x80) buf
  E t

/-- C7: PMAC of the zero-length message is well defined and never skips the
final encryption: the freshly initialised state still has `counter = 1` and
an all-zero `tag`, finalize turns `tag[0]` into `0x80`, and the output is
the encryption of the block `0x80 ‖ 0 … 0`. -/
theorem pmac_empty_message (E dbl inv_dbl : List Nat → List Nat)
    (n lc : Nat) (hn : 0 < n) :
    (pmacInit E dbl inv_dbl n lc).2.counter = 1 ∧
    (pmacInit E dbl inv_dbl n lc).2.tag = zeroBlock n ∧
    pmacFinalizeCore E n (pmacInit E dbl inv_dbl n lc).2.tag
        ((pmacInit E dbl inv_dbl n lc).1.2) [] =
      E (0x80 :: zeroBlock (n - 1)) := by
  refine ⟨rfl, rfl, ?_⟩
  show pmacFinalizeCore E n (zeroBlock n) (inv_dbl (E (zeroBlock n))) [] =
    E (0x80 :: zeroBlock (n - 1))
  simp only [pmacFinalizeCore, List.length_nil, List.nil_append, Nat.sub_zero]
  rw [if_neg (by simp [zeroBlock]; omega)]
  have hz : zeroBlock n = 0 :: zeroBlock (n - 1) := by
    unfold zeroBlock
    rw [show n = (n - 1) + 1 by omega]
    rfl
  have hset : setXor (zeroBlock n) 0 0x80 = 0x80 :: zeroBlock (n - 1) := by
    rw [hz]
    simp [setXor]
  rw [hset]
  have : xorB (0x80 :: zeroBlock (n - 1)) (zeroBlock n) =
      0x80 :: zeroBlock (n - 1) := by
    apply xorB_zero_right_of_le
    simp [zeroBlock]
    omega
  rw [this]

/-- Witness for C7 at block size 8 with identity cipher and doublings. -/
theorem pmac_empty_message_witness :
    (pmacInit id id id 8 4).2.counter = 1 ∧
    (pmacInit id id id 8 4).2.tag = zeroBlock 8 ∧
    pmacFinalizeCore id 8 (pmacInit id id id 8 4).2.tag
        ((pmacInit id id id 8 4).1.2) [] = id (0x80 :: zeroBlock (8 - 1)) :=
  pmac_empty_message id id id 8 4 (by decide)

/-! ## PMAC `update_blocks` (`PmacCore::update_blocks`)

The sequential path handles one block at a time (`block ⊕= next_offset();
encrypt; tag ⊕= block`).  When the backend exposes `ParBlocksSize > 1`, the
code splits the input into chunks of that width; for each chunk it computes
the offsets sequentially, encrypts the whole chunk as a batch
(`encrypt_par_blocks`, i.e. `E` applied to each block independently) and
then folds every ciphertext into the tag, finishing with the sequential
path on the remainder (`chunks_exact` + `remainder`). -/

def pmacSeqStep (E dbl : List Nat → List Nat) (cache : List (List Nat))
    (lc : Nat) (s : PmacSt) (b : List Nat) : PmacSt :=
  let r := pmacNextOffset dbl cache lc s
  { r.2 with tag := xorB r.2.tag (E (xorB b r.1)) }

def pmacSeqUpdate (E dbl : List Nat → List Nat) (cache : List (List Nat))
    (lc : Nat) (s : PmacSt) (blocks : List (List Nat)) : PmacSt :=
  blocks.foldl (pmacSeqStep E dbl cache lc) s

/-- First phase of a parallel chunk: xor each block with the successive
offsets, threading the state. -/
def pmacMaskChunk (dbl : List Nat → List Nat) (cache : List (List Nat))
    (lc : Nat) : PmacSt → List (List Nat) → List (List Nat) × PmacSt
  | s, [] => ([], s)
  | s, b :: bs =>
    let r := pmacNextOffset dbl cache lc s
    let rest := pmacMaskChunk dbl cache lc r.2 bs
    (xorB b r.1 :: rest.1, rest.2)

/-- One parallel chunk: mask, batch-encrypt, fold the ciphertexts into the
tag in order. -/
def pmacParChunk (E dbl : List Nat → List Nat) (cache : List (List Nat))
    (lc : Nat) (s : PmacSt) (chunk : List (List Nat)) : PmacSt :=
  let m := pmacMaskChunk dbl cache lc s chunk
  let enc := m.1.map E
  { m.2 with tag := enc.foldl (fun t c => xorB t c) m.2.tag }

def pmacParLoop (E dbl : List Nat → List Nat) (cache : List (List Nat))
    (lc p : Nat) (s : PmacSt) (blocks : List (List Nat)) : PmacSt :=
  if h : 0 < p ∧ p ≤ blocks.length then
    pmacParLoop E dbl cache lc p
      (pmacParChunk E dbl cache lc s (blocks.take p)) (blocks.drop p)
  else
    pmacSeqUpdate E dbl cache lc s blocks
termination_by blocks.length
decreasing_by
  simp only [List.length_drop]
  omega

/-- `update_blocks` with a backend of parallel width `p`: the chunked path
fires only when `p > 1`, otherwise every block goes through the sequential
loop. -/
def pmacParUpdate (E dbl : List Nat → List Nat) (cache : List (List Nat))
    (lc p : Nat) (s : PmacSt) (blocks : List (List Nat)) : PmacSt :=
  if 1 < p then pmacParLoop E dbl cache lc p s blocks
  else pmacSeqUpdate E dbl cache lc s blocks


/-- The mask selected by `next_offset` for counter value `c` (the table
lookup, or doubling of the last entry past the table). -/
def pmacMaskOf (dbl : List Nat → List Nat) (cache : List (List Nat))
    (lc c : Nat) : List Nat :=
  if ntz c < lc then cache.getD (ntz c) []
  else dbl^[ntz c - (lc - 1)] (cache.getD (lc - 1) [])

theorem pmacNextOffset_eq (dbl : List Nat → List Nat)
    (cache : List (List Nat)) (lc : Nat) (tg off : List Nat) (c : Nat) :
    pmacNextOffset dbl cache lc ⟨tg, off, c⟩ =
      (xorB off (pmacMaskOf dbl cache lc c),
        ⟨tg, xorB off (pmacMaskOf dbl cache lc c), c + 1⟩) := rfl

theorem pmacSeqStep_eq (E dbl : List Nat → List Nat)
    (cache : List (List Nat)) (lc : Nat) (tg off b : List Nat) (c : Nat) :
    pmacSeqStep E dbl cache lc ⟨tg, off, c⟩ b =
      ⟨xorB tg (E (xorB b (xorB off (pmacMaskOf dbl cache lc c)))),
        xorB off (pmacMaskOf dbl cache lc c), c + 1⟩ := rfl

theorem pmacMaskChunk_nil (dbl : List Nat → List Nat)
    (cache : List (List Nat)) (lc : Nat) (s : PmacSt) :
    pmacMaskChunk dbl cache lc s [] = ([], s) := rfl

theorem pmacMaskChunk_cons (dbl : List Nat → List Nat)
    (cache : List (List Nat)) (lc : Nat) (tg off b : List Nat) (c : Nat)
    (bs : List (List Nat)) :
    pmacMaskChunk dbl cache lc ⟨tg, off, c⟩ (b :: bs) =
      (xorB b (xorB off (pmacMaskOf dbl cache lc c)) ::
        (pmacMaskChunk dbl cache lc
          ⟨tg, xorB off (pmacMaskOf dbl cache lc c), c + 1⟩ bs).1,
        (pmacMaskChunk dbl cache lc
          ⟨tg, xorB off (pmacMaskOf dbl cache lc c), c + 1⟩ bs).2) := rfl

/-- Masking a chunk neither reads nor writes the tag. -/
theorem pmacMaskChunk_tag (dbl : List Nat → List Nat)
    (cache : List (List Nat)) (lc : Nat) (bs : List (List Nat)) :
    ∀ (tg off : List Nat) (c : Nat),
      pmacMaskChunk dbl cache lc ⟨tg, off, c⟩ bs =
        ((pmacMaskChunk dbl cache lc ⟨[], off, c⟩ bs).1,
          ⟨tg, (pmacMaskChunk dbl cache lc ⟨[], off, c⟩ bs).2.offset,
            (pmacMaskChunk dbl cache lc ⟨[], off, c⟩ bs).2.counter⟩) := by
  induction bs with
  | nil => intro tg off c; rfl
  | cons b bs ih =>
    intro tg off c
    rw [pmacMaskChunk_cons, pmacMaskChunk_cons,
      ih tg (xorB off (pmacMaskOf dbl cache lc c)) (c + 1),
      ih [] (xorB off (pmacMaskOf dbl cache lc c)) (c + 1)]

theorem pmacParChunk_eq' (E dbl : List Nat → List Nat)
    (cache : List (List Nat)) (lc : Nat) (s : PmacSt)
    (chunk : List (List Nat)) :
    pmacParChunk E dbl cache lc s chunk =
      ⟨((pmacMaskChunk dbl cache lc s chunk).1.map E).foldl
          (fun t c => xorB t c) (pmacMaskChunk dbl cache lc s chunk).2.tag,
        (pmacMaskChunk dbl cache lc s chunk).2.offset,
        (pmacMaskChunk dbl cache lc s chunk).2.counter⟩ := rfl

/-- One batched chunk leaves the same state as the sequential fold over the
same blocks. -/
theorem pmacParChunk_eq_seq (E dbl : List Nat → List Nat)
    (cache : List (List Nat)) (lc : Nat) (chunk : List (List Nat)) :
    ∀ s : PmacSt, pmacParChunk E dbl cache lc s chunk =
      pmacSeqUpdate E dbl cache lc s chunk := by
  induction chunk with
  | nil => intro s; rfl
  | cons b bs ih =>
    intro s
    obtain ⟨tg, off, c⟩ := s
    show pmacParChunk E dbl cache lc ⟨tg, off, c⟩ (b :: bs) =
      pmacSeqUpdate E dbl cache lc (pmacSeqStep E dbl cache lc ⟨tg, off, c⟩ b) bs
    rw [pmacSeqStep_eq, ← ih, pmacParChunk_eq', pmacParChunk_eq',
      pmacMaskChunk_cons,
      pmacMaskChunk_tag dbl cache lc bs tg
        (xorB off (pmacMaskOf dbl cache lc c)) (c + 1),
      pmacMaskChunk_tag dbl cache lc bs
        (xorB tg (E (xorB b (xorB off (pmacMaskOf dbl cache lc c)))))
        (xorB off (pmacMaskOf dbl cache lc c)) (c + 1)]
    rfl

theorem pmacSeqUpdate_append (E dbl : List Nat → List Nat)
    (cache : List (List Nat)) (lc : Nat) (s : PmacSt)
    (a b : List (List Nat)) :
    pmacSeqUpdate E dbl cache lc s (a ++ b) =
      pmacSeqUpdate E dbl cache lc (pmacSeqUpdate E dbl cache lc s a) b :=
  List.foldl_append ..

theorem pmacParLoop_eq_seq (E dbl : List Nat → List Nat)
    (cache : List (List Nat)) (lc p : Nat) :
    ∀ (k : Nat) (blocks : List (List Nat)) (s : PmacSt),
      blocks.length ≤ k →
      pmacParLoop E dbl cache lc p s blocks =
        pmacSeqUpdate E dbl cache lc s blocks := by
  intro k
  induction k with
  | zero =>
    intro blocks s hk
    rw [pmacParLoop]
    have : blocks = [] := List.eq_nil_of_length_eq_zero (by omega)
    subst this
    rw [dif_neg (by rintro ⟨h1, h2⟩; simp at h2; omega)]
  | succ k ih =>
    intro blocks s hk
    rw [pmacParLoop]
    by_cases h : 0 < p ∧ p ≤ blocks.length
    · rw [dif_pos h]
      rw [ih (blocks.drop p) _ (by simp [List.length_drop]; omega)]
      rw [pmacParChunk_eq_seq]
      rw [← pmacSeqUpdate_append, List.take_append_drop]
    · rw [dif_neg h]

/-- C6: for every cipher, cache, table size, parallel width `p` and starting
state, PMAC's batched update path (chunks of width `p` masked sequentially,
batch-encrypted, ciphertexts folded into the tag, remainder sequential)
leaves exactly the same `(tag, offset, counter)` state as the purely
sequential path. -/
theorem pmac_par_update_eq_seq (E dbl : List Nat → List Nat)
    (cache : List (List Nat)) (lc p : Nat) (s : PmacSt)
    (blocks : List (List Nat)) :
    pmacParUpdate E dbl cache lc p s blocks =
      pmacSeqUpdate E dbl cache lc s blocks := by
  unfold pmacParUpdate
  by_cases h : 1 < p
  · rw [if_pos h, pmacParLoop_eq_seq E dbl cache lc p blocks.length blocks s le_rfl]
  · rw [if_neg h]

/-! ## DAA (`daa/src/lib.rs`)

`Daa` keeps an 8-byte `buffer` (holding `chain ⊕ pending bytes`) and a fill
position `pos ∈ [0, 8]`.  `update` xors incoming bytes into the buffer,
encrypting it whenever a further full block arrives (the buffer is lazy: a
completed block waits at `pos = 8` until more data or finalize arrives).
`xorInto b d` models `b.iter_mut().zip(d)` xoring (`zip` truncates at the
shorter list); `xorAt b p d` models xoring `d` into `b[p..]`. -/

def xorInto : List Nat → List Nat → List Nat
  | bs, [] => bs
  | [], _ => []
  | b :: bs, x :: xs => (b ^^^ x) :: xorInto bs xs

def xorAt (buf : List Nat) (pos : Nat) (data : List Nat) : List Nat :=
  buf.take pos ++ xorInto (buf.drop pos) data

structure DaaSt where
  buffer : List Nat
  pos : Nat
deriving DecidableEq

def daaInit : DaaSt := ⟨zeroBlock 8, 0⟩

/-- The `while data.len() >= n` loop of `Daa::update` followed by the final
partial-chunk step; entered with `pos = n = 8`. -/
def daaLoop (E : List Nat → List Nat) (buffer : List Nat)
    (data : List Nat) : DaaSt :=
  if _h : 8 ≤ data.length then
    daaLoop E (xorInto (E buffer) (data.take 8)) (data.drop 8)
  else if data = [] then ⟨buffer, 8⟩
  else ⟨xorInto (E buffer) data, data.length⟩
termination_by data.length
decreasing_by
  simp only [List.length_drop]
  omega

/-- `Daa::update`: if the input reaches the end of the current block, fill
it (`rem = n - pos` bytes), run the block loop on the rest; otherwise just
absorb the bytes into the buffer. -/
def daaUpdate (E : List Nat → List Nat) (s : DaaSt) (data : List Nat) :
    DaaSt :=
  let rem := 8 - s.pos
  if rem ≤ data.length then
    daaLoop E (xorAt s.buffer s.pos (data.take rem)) (data.drop rem)
  else ⟨xorAt s.buffer s.pos data, s.pos + data.length⟩

/-- `Daa::finalize`: encrypt the pending block only when `pos ≠ 0`. -/
def daaFinalize (E : List Nat → List Nat) (s : DaaSt) : List Nat :=
  if s.pos ≠ 0 then E s.buffer else s.buffer

/-- One absorbed byte, the granularity at which `update` is equivalent to a
fold. -/
def daaStep (E : List Nat → List Nat) (s : DaaSt) (x : Nat) : DaaSt :=
  if s.pos = 8 then ⟨xorInto (E s.buffer) [x], 1⟩
  else ⟨xorAt s.buffer s.pos [x], s.pos + 1⟩

theorem xorInto_nil (bs : List Nat) : xorInto bs [] = bs := by
  cases bs <;> rfl

theorem xorInto_nil_left (d : List Nat) : xorInto [] d = [] := by
  cases d <;> rfl

theorem xorAt_nil (buf : List Nat) (p : Nat) : xorAt buf p [] = buf := by
  unfold xorAt
  rw [xorInto_nil, List.take_append_drop]

theorem xorAt_nil_buf (p : Nat) (d : List Nat) : xorAt [] p d = [] := by
  unfold xorAt
  simp [xorInto_nil_left]

theorem xorInto_eq_xorAt_zero (buf data : List Nat) :
    xorInto buf data = xorAt buf 0 data := rfl

theorem xorAt_cons_succ (b : Nat) (bs : List Nat) (q : Nat) (d : List Nat) :
    xorAt (b :: bs) (q + 1) d = b :: xorAt bs q d := rfl

/-- Peeling one byte off a ranged xor. -/
theorem xorAt_cons (buf : List Nat) (p x : Nat) (xs : List Nat) :
    xorAt buf p (x :: xs) = xorAt (xorAt buf p [x]) (p + 1) xs := by
  induction buf generalizing p with
  | nil => rw [xorAt_nil_buf, xorAt_nil_buf, xorAt_nil_buf]
  | cons b bs ih =>
    cases p with
    | zero =>
      show xorInto (b :: bs) (x :: xs) = xorAt (xorInto (b :: bs) [x]) 1 xs
      rw [show xorInto (b :: bs) [x] = (b ^^^ x) :: bs from by
        show (b ^^^ x) :: xorInto bs [] = _
        rw [xorInto_nil]]
      rw [show (1 : Nat) = 0 + 1 from rfl, xorAt_cons_succ]
      rfl
    | succ q =>
      rw [xorAt_cons_succ, xorAt_cons_succ, xorAt_cons_succ]
      exact congrArg _ (ih q)

/-- Absorbing bytes one at a time while the block is not yet full just xors
them in at successive positions. -/
theorem daaStep_run_fill (E : List Nat → List Nat) :
    ∀ (l : List Nat) (b : List Nat) (p : Nat), p + l.length ≤ 8 →
      l.foldl (daaStep E) ⟨b, p⟩ = ⟨xorAt b p l, p + l.length⟩ := by
  intro l
  induction l with
  | nil =>
    intro b p _
    rw [List.foldl_nil, xorAt_nil, List.length_nil, Nat.add_zero]
  | cons x xs ih =>
    intro b p hp
    rw [List.foldl_cons]
    have hp' : p + (xs.length + 1) ≤ 8 := by
      simpa using hp
    have hstep : daaStep E ⟨b, p⟩ x = ⟨xorAt b p [x], p + 1⟩ := by
      show (if p = 8 then (⟨xorInto (E b) [x], 1⟩ : DaaSt)
        else ⟨xorAt b p [x], p + 1⟩) = ⟨xorAt b p [x], p + 1⟩
      rw [if_neg (by omega)]
    rw [hstep, ih (xorAt b p [x]) (p + 1) (by omega)]
    rw [← xorAt_cons]
    show (⟨_, p + 1 + xs.length⟩ : DaaSt) = ⟨_, p + (xs.length + 1)⟩
    rw [show p + 1 + xs.length = p + (xs.length + 1) by omega]

/-- The block loop equals the byte-at-a-time fold entered at `pos = 8`. -/
theorem daaLoop_run (E : List Nat → List Nat) :
    ∀ (k : Nat) (data : List Nat) (b : List Nat), data.length ≤ k →
      daaLoop E b data = data.foldl (daaStep E) ⟨b, 8⟩ := by
  intro k
  induction k with
  | zero =>
    intro data b hk
    have : data = [] := List.eq_nil_of_length_eq_zero (by omega)
    subst this
    rw [daaLoop]
    rw [dif_neg (by simp), if_pos rfl, List.foldl_nil]
  | succ k ih =>
    intro data b hk
    rw [daaLoop]
    by_cases h8 : 8 ≤ data.length
    · rw [dif_pos h8]
      obtain ⟨x, rest, hx⟩ : ∃ x rest, data = x :: rest := by
        cases data with
        | nil => simp at h8
        | cons x rest => exact ⟨x, rest, rfl⟩
      subst hx
      rw [ih (List.drop 8 (x :: rest)) _
        (by simp only [List.length_drop, List.length_cons] at hk ⊢; omega)]
      have htake : List.take 8 (x :: rest) = x :: List.take 7 rest := rfl
      have hfold : (x :: rest).foldl (daaStep E) ⟨b, 8⟩ =
          (List.take 7 rest ++ List.drop 7 rest).foldl (daaStep E)
            (daaStep E ⟨b, 8⟩ x) := by
        rw [List.take_append_drop, List.foldl_cons]
      rw [hfold, List.foldl_append]
      have hstep : daaStep E ⟨b, 8⟩ x = ⟨xorInto (E b) [x], 1⟩ := by
        unfold daaStep
        rw [if_pos rfl]
      rw [hstep]
      have hlen7 : (List.take 7 rest).length = 7 := by
        simp only [List.length_cons] at h8
        simp only [List.length_take]
        omega
      rw [daaStep_run_fill E (List.take 7 rest) (xorInto (E b) [x]) 1
        (by rw [hlen7])]
      rw [hlen7]
      have hxa : xorAt (xorInto (E b) [x]) 1 (List.take 7 rest) =
          xorInto (E b) (List.take 8 (x :: rest)) := by
        rw [htake, xorInto_eq_xorAt_zero, xorInto_eq_xorAt_zero,
          ← xorAt_cons]
      rw [hxa]
      have hdrop : List.drop 8 (x :: rest) = List.drop 7 rest := rfl
      rw [hdrop]
    · rw [dif_neg h8]
      by_cases hnil : data = []
      · rw [if_pos hnil]
        subst hnil
        rw [List.foldl_nil]
      · rw [if_neg hnil]
        obtain ⟨x, rest, hx⟩ : ∃ x rest, data = x :: rest := by
          cases data with
          | nil => exact absurd rfl hnil
          | cons x rest => exact ⟨x, rest, rfl⟩
        subst hx
        rw [List.foldl_cons]
        have hstep : daaStep E ⟨b, 8⟩ x = ⟨xorInto (E b) [x], 1⟩ := by
          unfold daaStep
          rw [if_pos rfl]
        rw [hstep]
        rw [daaStep_run_fill E rest (xorInto (E b) [x]) 1
          (by simp only [List.length_cons] at h8; omega)]
        rw [xorInto_eq_xorAt_zero, xorInto_eq_xorAt_zero, ← xorAt_cons]
        rw [show (1 : Nat) + rest.length = (x :: rest).length by
          simp [List.length_cons]; omega]

/-- `Daa::update` is the byte-at-a-time fold, for every reachable state
(`pos ≤ 8`). -/
theorem daaUpdate_run (E : List Nat → List Nat) (s : DaaSt)
    (data : List Nat) (hpos : s.pos ≤ 8) :
    daaUpdate E s data = data.foldl (daaStep E) s := by
  obtain ⟨b, p⟩ := s
  have hp : p ≤ 8 := hpos
  simp only [daaUpdate]
  by_cases h : 8 - p ≤ data.length
  · rw [if_pos h]
    rw [daaLoop_run E (data.drop (8 - p)).length _ _ le_rfl]
    conv_rhs => rw [← List.take_append_drop (8 - p) data, List.foldl_append]
    rw [daaStep_run_fill E (data.take (8 - p)) b p
      (by simp only [List.length_take]; omega)]
    rw [show p + (List.take (8 - p) data).length = 8 by
      simp only [List.length_take]; omega]
  · rw [if_neg h]
    rw [daaStep_run_fill E data b p (by omega)]

theorem daaStep_pos_le (E : List Nat → List Nat) (s : DaaSt) (x : Nat)
    (h : s.pos ≤ 8) : (daaStep E s x).pos ≤ 8 := by
  unfold daaStep
  by_cases hp : s.pos = 8
  · rw [if_pos hp]
    show (1 : Nat) ≤ 8
    omega
  · rw [if_neg hp]
    show s.pos + 1 ≤ 8
    omega

theorem daaFoldl_pos_le (E : List Nat → List Nat) (data : List Nat) :
    ∀ s : DaaSt, s.pos ≤ 8 → (data.foldl (daaStep E) s).pos ≤ 8 := by
  induction data with
  | nil => intro s h; exact h
  | cons x xs ih =>
    intro s h
    rw [List.foldl_cons]
    exact ih _ (daaStep_pos_le E s x h)

/-- Folding `update` over a chunk list from a reachable state equals one
`update` of the concatenation. -/
theorem daaUpdate_chunks (E : List Nat → List Nat) (chunks : List (List Nat)) :
    ∀ s : DaaSt, s.pos ≤ 8 →
      chunks.foldl (daaUpdate E) s = daaUpdate E s chunks.flatten := by
  induction chunks with
  | nil =>
    intro s h
    rw [List.foldl_nil, List.flatten_nil, daaUpdate_run E s [] h, List.foldl_nil]
  | cons c cs ih =>
    intro s h
    have hpos2 : (daaUpdate E s c).pos ≤ 8 := by
      rw [daaUpdate_run E s c h]
      exact daaFoldl_pos_le E c s h
    rw [List.foldl_cons, ih _ hpos2, List.flatten_cons,
      daaUpdate_run E s (c ++ cs.flatten) h, List.foldl_append,
      ← daaUpdate_run E s c h,
      ← daaUpdate_run E (daaUpdate E s c) cs.flatten hpos2]

/-- C9: for every cipher `E` and every way of splitting a message into
consecutive chunks (including byte-at-a-time), updating a fresh DAA
instance chunk by chunk and finalizing yields the same tag as one `update`
of the whole message followed by `finalize`. -/
theorem daa_incremental_equivalence (E : List Nat → List Nat)
    (chunks : List (List Nat)) :
    daaFinalize E (chunks.foldl (daaUpdate E) daaInit) =
      daaFinalize E (daaUpdate E daaInit chunks.flatten) :=
  congrArg (daaFinalize E)
    (daaUpdate_chunks E chunks daaInit (by show (0 : Nat) ≤ 8; omega))

/-! ## GF doubling (`cmac/src/double.rs`, trait `Doublable`)

The Rust code transmutes a block to one, two or four `u64` limbs,
byte-swaps each to big-endian (`to_be`), shifts the multi-limb value left
by one bit carrying the top bit of each limb into the next, and xors a
constant into the last limb when the overall top bit dropped out.
`baseVal B l` is the base-`B` big-endian value of a digit list; a byte list
`bytes` corresponds to the limb list `bytesToLimbs k bytes` with
`baseVal (2^64)` as value. -/

def baseVal (B : Nat) (l : List Nat) : Nat := l.foldl (fun a b => B * a + b) 0

theorem baseVal_foldl_acc (B : Nat) :
    ∀ (l : List Nat) (a : Nat),
      l.foldl (fun x b => B * x + b) a = a * B ^ l.length + baseVal B l := by
  intro l
  induction l with
  | nil =>
    intro a
    simp [baseVal]
  | cons x xs ih =>
    intro a
    rw [List.foldl_cons, ih (B * a + x)]
    have hx : baseVal B (x :: xs) = x * B ^ xs.length + baseVal B xs := by
      show List.foldl _ (B * 0 + x) xs = _
      rw [show B * 0 + x = x by ring, ih x]
    rw [hx, List.length_cons]
    ring

theorem baseVal_cons (B x : Nat) (xs : List Nat) :
    baseVal B (x :: xs) = x * B ^ xs.length + baseVal B xs := by
  show List.foldl _ (B * 0 + x) xs = _
  rw [show B * 0 + x = x by ring, baseVal_foldl_acc B xs x]

theorem baseVal_append (B : Nat) (l1 l2 : List Nat) :
    baseVal B (l1 ++ l2) = baseVal B l1 * B ^ l2.length + baseVal B l2 := by
  unfold baseVal
  rw [List.foldl_append]
  exact baseVal_foldl_acc B l2 _

theorem baseVal_single (B x : Nat) : baseVal B [x] = x := by
  show B * 0 + x = x
  ring

theorem baseVal_lt (B : Nat) (l : List Nat) (h : ∀ b ∈ l, b < B) :
    baseVal B l < B ^ l.length := by
  induction l with
  | nil =>
    show (0 : Nat) < B ^ 0
    simp
  | cons x xs ih =>
    rw [baseVal_cons, List.length_cons]
    have hx : x < B := h x (by simp)
    have hxs : baseVal B xs < B ^ xs.length := ih (fun b hb => h b (by simp [hb]))
    calc x * B ^ xs.length + baseVal B xs
        < x * B ^ xs.length + B ^ xs.length := by omega
      _ = (x + 1) * B ^ xs.length := by ring
      _ ≤ B * B ^ xs.length := Nat.mul_le_mul_right _ (by omega)
      _ = B ^ (xs.length + 1) := by ring

/-- `u64::to_be_bytes` generalised: the `k`-byte big-endian encoding of
`x % 256^k`. -/
def beBytesFixed : Nat → Nat → List Nat
  | 0, _ => []
  | k + 1, x => beBytesFixed k (x / 256) ++ [x % 256]

theorem beBytesFixed_length (k : Nat) : ∀ x, (beBytesFixed k x).length = k := by
  induction k with
  | zero => intro x; rfl
  | succ k ih =>
    intro x
    show (beBytesFixed k (x / 256) ++ [x % 256]).length = k + 1
    simp [ih]

theorem beBytesFixed_bytes_lt (k : Nat) :
    ∀ x, ∀ b ∈ beBytesFixed k x, b < 256 := by
  induction k with
  | zero => intro x b hb; simp [beBytesFixed] at hb
  | succ k ih =>
    intro x b hb
    show b < 256
    rw [show beBytesFixed (k + 1) x = beBytesFixed k (x / 256) ++ [x % 256]
      from rfl] at hb
    rcases List.mem_append.mp hb with h | h
    · exact ih (x / 256) b h
    · simp at h
      subst h
      exact Nat.mod_lt _ (by omega)

theorem beBytesFixed_val (k : Nat) :
    ∀ x, baseVal 256 (beBytesFixed k x) = x % 256 ^ k := by
  induction k with
  | zero =>
    intro x
    show (0 : Nat) = x % 1
    omega
  | succ k ih =>
    intro x
    show baseVal 256 (beBytesFixed k (x / 256) ++ [x % 256]) = x % 256 ^ (k + 1)
    rw [baseVal_append, ih (x / 256), baseVal_single, List.length_cons,
      List.length_nil, pow_one, Nat.pow_succ, Nat.mul_comm (256 ^ k) 256,
      Nat.mod_mul]
    ring

/-- The carrying left-shift loop (`for v in val.iter_mut().rev()`): every
limb becomes `(v << 1) + carry_in` with `carry_in` the top bit of the next
limb towards the end, and the returned flag is the dropped top bit of the
whole value. -/
def shlCarry : List Nat → List Nat × Nat
  | [] => ([], 0)
  | v :: rest =>
    let r := shlCarry rest
    (((2 * v) % 2 ^ 64 + r.2) :: r.1, v / 2 ^ 63)

/-- Arithmetic core of one step of the carrying shift: splitting
`2 * (v * L + R)` into the shifted-with-carry limb, the shifted rest, and
the outgoing carry. -/
theorem shl_limb_split (M L v R : Nat) (hM : 2 ≤ M) (hMe : M % 2 = 0)
    (hv : v < M) (hL : 0 < L) (hR : R < L) :
    ((2 * v) % M + 2 * R / L) * L + 2 * R % L = 2 * (v * L + R) % (M * L) ∧
    v / (M / 2) = 2 * (v * L + R) / (M * L) := by
  have hMpos : 0 < M := by omega
  have hq := Nat.div_add_mod (2 * v) M
  have hc := Nat.div_add_mod (2 * R) L
  have hr2lt : (2 * v) % M < M := Nat.mod_lt _ hMpos
  have hslt : (2 * R) % L < L := Nat.mod_lt _ hL
  have hr2even : (2 * v) % M % 2 = 0 := by
    rw [Nat.mod_mod_of_dvd _ (Dvd.intro_left (M / 2) (by omega))]
    omega
  have hcle : 2 * R / L ≤ 1 := by
    have : 2 * R / L < 2 := (Nat.div_lt_iff_lt_mul hL).mpr (by omega)
    omega
  have hbound : ((2 * v) % M + 2 * R / L) * L + 2 * R % L < M * L := by
    have h1 : (2 * v) % M + 2 * R / L ≤ M - 1 := by omega
    calc ((2 * v) % M + 2 * R / L) * L + 2 * R % L
        ≤ (M - 1) * L + 2 * R % L := by
          exact Nat.add_le_add_right (Nat.mul_le_mul_right _ h1) _
      _ < (M - 1) * L + L := by omega
      _ = M * L := by
          have : M - 1 + 1 = M := by omega
          calc (M - 1) * L + L = (M - 1 + 1) * L := by ring
            _ = M * L := by rw [this]
  have hdecomp : 2 * (v * L + R) =
      M * L * (2 * v / M) + (((2 * v) % M + 2 * R / L) * L + 2 * R % L) := by
    calc 2 * (v * L + R) = (2 * v) * L + 2 * R := by ring
      _ = (M * (2 * v / M) + (2 * v) % M) * L +
            (L * (2 * R / L) + 2 * R % L) := by rw [hq, hc]
      _ = M * L * (2 * v / M) +
            (((2 * v) % M + 2 * R / L) * L + 2 * R % L) := by ring
  constructor
  · rw [hdecomp, Nat.mul_add_mod, Nat.mod_eq_of_lt hbound]
  · rw [hdecomp, Nat.mul_add_div (by positivity), Nat.div_eq_of_lt hbound,
      Nat.add_zero]
    conv_rhs => rw [show M = 2 * (M / 2) from by omega]
    exact (Nat.mul_div_mul_left v (M / 2) (by omega)).symm

/-- Correctness of the carrying shift loop: the output limbs hold
`2 * value` reduced modulo `2^(64 * len)`, the flag is the dropped top bit,
and the limb bounds and count are preserved. -/
theorem shlCarry_spec (limbs : List Nat) (h : ∀ v ∈ limbs, v < 2 ^ 64) :
    baseVal (2 ^ 64) (shlCarry limbs).1 =
      (2 * baseVal (2 ^ 64) limbs) % (2 ^ 64) ^ limbs.length ∧
    (shlCarry limbs).2 = (2 * baseVal (2 ^ 64) limbs) / (2 ^ 64) ^ limbs.length ∧
    (∀ v ∈ (shlCarry limbs).1, v < 2 ^ 64) ∧
    (shlCarry limbs).1.length = limbs.length := by
  induction limbs with
  | nil =>
    refine ⟨?_, ?_, ?_, ?_⟩ <;> simp [shlCarry, baseVal]
  | cons v rest ih =>
    have hv : v < 2 ^ 64 := h v (by simp)
    obtain ⟨ihv, ihc, ihb, ihl⟩ := ih (fun x hx => h x (by simp [hx]))
    have hrb : ∀ x ∈ rest, x < 2 ^ 64 := fun x hx => h x (by simp [hx])
    have hR : baseVal (2 ^ 64) rest < (2 ^ 64) ^ rest.length :=
      baseVal_lt _ _ hrb
    have hsplit := shl_limb_split (2 ^ 64) ((2 ^ 64) ^ rest.length) v
      (baseVal (2 ^ 64) rest) (by norm_num) (by norm_num) hv
      (by positivity) hR
    have hcons : shlCarry (v :: rest) =
        (((2 * v) % 2 ^ 64 + (shlCarry rest).2) :: (shlCarry rest).1,
          v / 2 ^ 63) := rfl
    have hpow : (2 ^ 64 : Nat) ^ (v :: rest).length =
        2 ^ 64 * (2 ^ 64) ^ rest.length := by
      rw [List.length_cons, pow_succ, Nat.mul_comm]
    have hv63 : v / 2 ^ 63 = v / (2 ^ 64 / 2) := by norm_num
    refine ⟨?_, ?_, ?_, ?_⟩
    · rw [hcons, baseVal_cons, ihl, ihv, ihc, hpow, baseVal_cons]
      exact hsplit.1
    · rw [hcons, hpow, baseVal_cons, hv63]
      exact hsplit.2
    · rw [hcons]
      intro x hx
      rcases List.mem_cons.mp hx with hx | hx
      · subst hx
        have : (2 * v) % 2 ^ 64 < 2 ^ 64 := Nat.mod_lt _ (by norm_num)
        have hc1 : (shlCarry rest).2 ≤ 1 := by
          rw [ihc]
          have : 2 * baseVal (2 ^ 64) rest / (2 ^ 64) ^ rest.length < 2 :=
            (Nat.div_lt_iff_lt_mul (by positivity)).mpr (by omega)
          omega
        have heven : (2 * v) % 2 ^ 64 % 2 = 0 := by
          rw [Nat.mod_mod_of_dvd _ (Dvd.intro_left (2 ^ 63) (by norm_num))]
          omega
        have h64 : (2 : Nat) ^ 64 % 2 = 0 := by norm_num
        omega
      · exact ihb x hx
    · rw [hcons, List.length_cons, List.length_cons, ihl]

/-- Xoring a value smaller than `2^i` into the low `i` bits of
`H * 2^i + a` only touches `a`. -/
theorem xor_low_bits (i H a C : Nat) (ha : a < 2 ^ i) (hC : C < 2 ^ i) :
    (H * 2 ^ i + a) ^^^ C = H * 2 ^ i + (a ^^^ C) := by
  have haC : a ^^^ C < 2 ^ i := Nat.xor_lt_two_pow ha hC
  have key : ∀ b : Nat, b < 2 ^ i → ∀ j, (H * 2 ^ i + b).testBit j =
      if j < i then b.testBit j else H.testBit (j - i) := by
    intro b hb j
    by_cases hj : j < i
    · rw [if_pos hj]
      have h1 : (H * 2 ^ i + b) % 2 ^ i = b := by
        rw [Nat.mul_comm H (2 ^ i), Nat.mul_add_mod, Nat.mod_eq_of_lt hb]
      have h2 := Nat.testBit_mod_two_pow (H * 2 ^ i + b) i j
      rw [h1] at h2
      rw [h2]
      simp [hj]
    · rw [if_neg hj]
      have hdiv : (H * 2 ^ i + b) >>> i = H := by
        rw [Nat.shiftRight_eq_div_pow, Nat.mul_comm H (2 ^ i),
          Nat.mul_add_div (by positivity), Nat.div_eq_of_lt hb, Nat.add_zero]
      have h3 := @Nat.testBit_shiftRight i (j - i) (H * 2 ^ i + b)
      rw [hdiv, show i + (j - i) = j from by omega] at h3
      exact h3.symm
  apply Nat.eq_of_testBit_eq
  intro j
  rw [Nat.testBit_xor, key a ha j, key (a ^^^ C) haC j]
  by_cases hj : j < i
  · rw [if_pos hj, if_pos hj, Nat.testBit_xor]
  · rw [if_neg hj, if_neg hj]
    have hCj : C.testBit j = false :=
      Nat.testBit_lt_two_pow
        (lt_of_lt_of_le hC (Nat.pow_le_pow_right (by omega) (by omega)))
    rw [hCj]
    simp

/-- `val[last] ^= C` at the level of `setXor`. -/
theorem setXor_append_last (ys : List Nat) (z C : Nat) :
    setXor (ys ++ [z]) ys.length C = ys ++ [z ^^^ C] := by
  induction ys with
  | nil => rfl
  | cons y ys ih =>
    show setXor (y :: (ys ++ [z])) (ys.length + 1) C = y :: (ys ++ [z ^^^ C])
    unfold setXor at ih ⊢
    rw [List.getD_cons_succ, List.set_cons_succ, ih]

/-- The conditional final xor of the `Doublable` implementations
(`if flag { val[last] ^= C }`) after the carrying shift. -/
def dblLimbs (C : Nat) (limbs : List Nat) : List Nat :=
  let r := shlCarry limbs
  if r.2 = 1 then setXor r.1 (r.1.length - 1) C else r.1

theorem dblLimbs_spec (C : Nat) (limbs : List Nat) (hne : limbs ≠ [])
    (hb : ∀ v ∈ limbs, v < 2 ^ 64) (hC : C < 2 ^ 64) :
    baseVal (2 ^ 64) (dblLimbs C limbs) =
      ((2 * baseVal (2 ^ 64) limbs) % (2 ^ 64) ^ limbs.length) ^^^
        (if (2 ^ 64) ^ limbs.length ≤ 2 * baseVal (2 ^ 64) limbs then C
          else 0) ∧
    (dblLimbs C limbs).length = limbs.length ∧
    (∀ v ∈ dblLimbs C limbs, v < 2 ^ 64) := by
  obtain ⟨hv, hc, hbnd, hlen⟩ := shlCarry_spec limbs hb
  have hVlt : baseVal (2 ^ 64) limbs < (2 ^ 64) ^ limbs.length :=
    baseVal_lt _ _ hb
  have hLpos : (0 : Nat) < (2 ^ 64) ^ limbs.length := by positivity
  simp only [dblLimbs]
  by_cases hflag : (shlCarry limbs).2 = 1
  · rw [if_pos hflag]
    have hge : (2 ^ 64) ^ limbs.length ≤ 2 * baseVal (2 ^ 64) limbs := by
      rw [hc] at hflag
      exact (Nat.one_le_div_iff hLpos).mp (by omega)
    rw [if_pos hge]
    obtain ⟨ys, z, hyz⟩ : ∃ ys z, (shlCarry limbs).1 = ys ++ [z] := by
      rcases List.eq_nil_or_concat ((shlCarry limbs).1) with h0 | ⟨ys, z, h0⟩
      · exfalso
        rw [h0] at hlen
        simp at hlen
        exact hne (List.eq_nil_of_length_eq_zero hlen.symm)
      · exact ⟨ys, z, by rw [h0, List.concat_eq_append]⟩
    have hz : z < 2 ^ 64 := by
      apply hbnd
      rw [hyz]
      simp
    have hidx : (ys ++ [z]).length - 1 = ys.length := by
      simp
    have hlen2 : ys.length + 1 = limbs.length := by
      rw [← hlen, hyz]
      simp
    have hv' : baseVal (2 ^ 64) ys * 2 ^ 64 + z =
        2 * baseVal (2 ^ 64) limbs % (2 ^ 64) ^ limbs.length := by
      rw [← hv, hyz, baseVal_append, baseVal_single,
        show ([z] : List Nat).length = 1 from rfl, pow_one]
    rw [hyz, hidx, setXor_append_last]
    refine ⟨?_, ?_, ?_⟩
    · rw [baseVal_append, baseVal_single,
        show ([z ^^^ C] : List Nat).length = 1 from rfl, pow_one, ← hv']
      exact (xor_low_bits 64 (baseVal (2 ^ 64) ys) z C hz hC).symm
    · simp only [List.length_append, List.length_cons, List.length_nil]
      omega
    · intro v hvv
      rcases List.mem_append.mp hvv with h0 | h0
      · exact hbnd v (by rw [hyz]; exact List.mem_append.mpr (Or.inl h0))
      · simp at h0
        subst h0
        exact Nat.xor_lt_two_pow hz hC
  · rw [if_neg hflag]
    have hc0 : (shlCarry limbs).2 = 0 := by
      have : 2 * baseVal (2 ^ 64) limbs / (2 ^ 64) ^ limbs.length < 2 :=
        (Nat.div_lt_iff_lt_mul hLpos).mpr (by omega)
      rw [hc] at hflag ⊢
      omega
    have hlt : ¬((2 ^ 64) ^ limbs.length ≤ 2 * baseVal (2 ^ 64) limbs) := by
      rw [hc] at hc0
      intro hcon
      have := (Nat.one_le_div_iff hLpos).mpr hcon
      omega
    rw [if_neg hlt, Nat.xor_zero]
    exact ⟨hv, hlen, hbnd⟩

/-- `transmute` to `[u64; k]` followed by per-limb `to_be`: limb `i` is the
big-endian value of bytes `8i … 8i+7`. -/
def bytesToLimbs : Nat → List Nat → List Nat
  | 0, _ => []
  | k + 1, bytes => baseVal 256 (bytes.take 8) :: bytesToLimbs k (bytes.drop 8)

/-- Per-limb `to_be` and `transmute` back to bytes. -/
def limbsToBytes (l : List Nat) : List Nat := (l.map (beBytesFixed 8)).flatten

theorem pow256_8 : (256 : Nat) ^ 8 = 2 ^ 64 := by norm_num

theorem bytesToLimbs_spec (k : Nat) :
    ∀ bytes : List Nat, bytes.length = 8 * k → (∀ b ∈ bytes, b < 256) →
      baseVal (2 ^ 64) (bytesToLimbs k bytes) = baseVal 256 bytes ∧
      (bytesToLimbs k bytes).length = k ∧
      (∀ v ∈ bytesToLimbs k bytes, v < 2 ^ 64) := by
  induction k with
  | zero =>
    intro bytes hlen _
    have : bytes = [] := List.eq_nil_of_length_eq_zero (by omega)
    subst this
    exact ⟨rfl, rfl, by simp [bytesToLimbs]⟩
  | succ k ih =>
    intro bytes hlen hb
    have hd : (bytes.drop 8).length = 8 * k := by
      simp [List.length_drop]
      omega
    have ht : (bytes.take 8).length = 8 := by
      simp [List.length_take]
      omega
    obtain ⟨ihv, ihl, ihb⟩ := ih (bytes.drop 8) hd
      (fun b hbb => hb b (List.mem_of_mem_drop hbb))
    have htb : ∀ b ∈ bytes.take 8, b < 256 :=
      fun b hbb => hb b (List.mem_of_mem_take hbb)
    have hheadlt : baseVal 256 (bytes.take 8) < 2 ^ 64 := by
      have := baseVal_lt 256 (bytes.take 8) htb
      rw [ht, pow256_8] at this
      exact this
    refine ⟨?_, ?_, ?_⟩
    · show baseVal (2 ^ 64)
        (baseVal 256 (bytes.take 8) :: bytesToLimbs k (bytes.drop 8)) = _
      rw [baseVal_cons, ihl, ihv]
      conv_rhs => rw [← List.take_append_drop 8 bytes]
      rw [baseVal_append, hd]
      have hpow : ((2 : Nat) ^ 64) ^ k = 256 ^ (8 * k) := by
        rw [← pow256_8, ← pow_mul]
      rw [hpow]
    · show (baseVal 256 (bytes.take 8) :: bytesToLimbs k (bytes.drop 8)).length = k + 1
      simp [ihl]
    · intro v hv
      rcases List.mem_cons.mp hv with h0 | h0
      · subst h0
        exact hheadlt
      · exact ihb v h0

theorem limbsToBytes_spec (l : List Nat) (hb : ∀ v ∈ l, v < 2 ^ 64) :
    baseVal 256 (limbsToBytes l) = baseVal (2 ^ 64) l ∧
    (limbsToBytes l).length = 8 * l.length ∧
    (∀ b ∈ limbsToBytes l, b < 256) := by
  induction l with
  | nil => exact ⟨rfl, rfl, by simp [limbsToBytes]⟩
  | cons v rest ih =>
    have hv : v < 2 ^ 64 := hb v (by simp)
    obtain ⟨ihv, ihl, ihb⟩ := ih (fun x hx => hb x (by simp [hx]))
    have hcons : limbsToBytes (v :: rest) =
        beBytesFixed 8 v ++ limbsToBytes rest := by
      unfold limbsToBytes
      rw [List.map_cons, List.flatten_cons]
    refine ⟨?_, ?_, ?_⟩
    · rw [hcons, baseVal_append, ihl, ihv, beBytesFixed_val,
        Nat.mod_eq_of_lt (by rw [pow256_8]; exact hv), baseVal_cons]
      have hpow : (256 : Nat) ^ (8 * rest.length) = ((2 : Nat) ^ 64) ^ rest.length := by
        rw [← pow256_8, ← pow_mul]
      rw [hpow]
    · rw [hcons]
      simp [ihl, beBytesFixed_length]
      ring
    · intro b hbb
      rw [hcons] at hbb
      rcases List.mem_append.mp hbb with h0 | h0
      · exact beBytesFixed_bytes_lt 8 v b h0
      · exact ihb b h0

/-- `Doublable for Block<U8>` (`double.rs` lines 19–30): single `u64`,
shift left, xor `0b11011` when the top bit was set. -/
def double8 (bytes : List Nat) : List Nat :=
  let val := baseVal 256 bytes
  let r :=
    if val >>> 63 = 1 then ((2 * val) % 2 ^ 64) ^^^ 0x1B
    else (2 * val) % 2 ^ 64
  beBytesFixed 8 r

/-- `Doublable for Block<U16>` (`double.rs` lines 39–61): two limbs,
carrying shift, xor `0b10000111` into the last limb on overflow. -/
def double16 (bytes : List Nat) : List Nat :=
  limbsToBytes (dblLimbs 0x87 (bytesToLimbs 2 bytes))

/-- `Doublable for Block<U32>` (`double.rs` lines 63–84): four limbs,
carrying shift, xor `0b100_0010_0101` into the last limb on overflow. -/
def double32 (bytes : List Nat) : List Nat :=
  limbsToBytes (dblLimbs 0x425 (bytesToLimbs 4 bytes))

theorem doubleLimbs_bytes (C k : Nat) (hk : 0 < k) (hC : C < 2 ^ 64)
    (bytes : List Nat) (hlen : bytes.length = 8 * k)
    (hb : ∀ b ∈ bytes, b < 256) :
    baseVal 256 (limbsToBytes (dblLimbs C (bytesToLimbs k bytes))) =
      ((2 * baseVal 256 bytes) % 2 ^ (64 * k)) ^^^
        (if 2 ^ (64 * k - 1) ≤ baseVal 256 bytes then C else 0) ∧
    (limbsToBytes (dblLimbs C (bytesToLimbs k bytes))).length = 8 * k := by
  obtain ⟨hbv, hbl, hbb⟩ := bytesToLimbs_spec k bytes hlen hb
  have hne : bytesToLimbs k bytes ≠ [] := by
    intro h0
    rw [h0] at hbl
    simp at hbl
    omega
  obtain ⟨hdv, hdl, hdb⟩ := dblLimbs_spec C _ hne hbb hC
  obtain ⟨hlv, hll, _⟩ := limbsToBytes_spec _ hdb
  constructor
  · rw [hlv, hdv, hbl, hbv]
    have hp : ((2 : Nat) ^ 64) ^ k = 2 ^ (64 * k) := by
      rw [← pow_mul]
    rw [hp]
    have h2 : (2 : Nat) ^ (64 * k) = 2 * 2 ^ (64 * k - 1) := by
      rw [← pow_succ']
      congr 1
      omega
    by_cases hcond : 2 ^ (64 * k - 1) ≤ baseVal 256 bytes
    · rw [if_pos hcond, if_pos (by rw [h2]; omega)]
    · rw [if_neg hcond, if_neg (by rw [h2]; omega)]
  · rw [hll, hdl, hbl]

/-- C4: for 8-, 16- and 32-byte blocks, the `Doublable` implementations
return the block interpreted as a big-endian integer, shifted left one bit
modulo the block width, xored with the reduction constant exactly when the
dropped top bit was 1 — and the constants are `0x1B`, `0x87` and `0x425`
respectively; the output is again a block of the same size. -/
theorem dbl_constants_spec :
    (∀ bytes : List Nat, bytes.length = 8 → (∀ b ∈ bytes, b < 256) →
      baseVal 256 (double8 bytes) =
        ((2 * baseVal 256 bytes) % 2 ^ 64) ^^^
          (if 2 ^ 63 ≤ baseVal 256 bytes then 0x1B else 0) ∧
      (double8 bytes).length = 8) ∧
    (∀ bytes : List Nat, bytes.length = 16 → (∀ b ∈ bytes, b < 256) →
      baseVal 256 (double16 bytes) =
        ((2 * baseVal 256 bytes) % 2 ^ 128) ^^^
          (if 2 ^ 127 ≤ baseVal 256 bytes then 0x87 else 0) ∧
      (double16 bytes).length = 16) ∧
    (∀ bytes : List Nat, bytes.length = 32 → (∀ b ∈ bytes, b < 256) →
      baseVal 256 (double32 bytes) =
        ((2 * baseVal 256 bytes) % 2 ^ 256) ^^^
          (if 2 ^ 255 ≤ baseVal 256 bytes then 0x425 else 0) ∧
      (double32 bytes).length = 32) := by
  refine ⟨?_, ?_, ?_⟩
  · intro bytes hlen hb
    have hval : baseVal 256 bytes < 2 ^ 64 := by
      have := baseVal_lt 256 bytes hb
      rw [hlen, pow256_8] at this
      exact this
    have h264 : (2 : Nat) ^ 64 = 2 * 2 ^ 63 := by norm_num
    have hshift : baseVal 256 bytes >>> 63 = baseVal 256 bytes / 2 ^ 63 :=
      Nat.shiftRight_eq_div_pow _ _
    have hcondiff : baseVal 256 bytes >>> 63 = 1 ↔
        2 ^ 63 ≤ baseVal 256 bytes := by
      rw [hshift]
      have hlt2 : baseVal 256 bytes / 2 ^ 63 < 2 :=
        (Nat.div_lt_iff_lt_mul (by positivity)).mpr (by omega)
      constructor
      · intro h1
        exact (Nat.one_le_div_iff (by positivity)).mp (by omega)
      · intro h1
        have := (Nat.one_le_div_iff (a := baseVal 256 bytes)
          (b := 2 ^ 63) (by positivity)).mpr h1
        omega
    simp only [double8]
    by_cases hc : 2 ^ 63 ≤ baseVal 256 bytes
    · rw [if_pos (hcondiff.mpr hc), if_pos hc]
      refine ⟨?_, beBytesFixed_length 8 _⟩
      rw [beBytesFixed_val, pow256_8,
        Nat.mod_eq_of_lt (Nat.xor_lt_two_pow
          (Nat.mod_lt _ (by positivity)) (by norm_num))]
    · rw [if_neg (fun h0 => hc (hcondiff.mp h0)), if_neg hc, Nat.xor_zero]
      refine ⟨?_, beBytesFixed_length 8 _⟩
      rw [beBytesFixed_val, pow256_8,
        Nat.mod_eq_of_lt (Nat.mod_lt _ (by positivity))]
  · intro bytes hlen hb
    have h := doubleLimbs_bytes 0x87 2 (by omega) (by norm_num) bytes
      (by omega) hb
    norm_num at h
    exact ⟨h.1, h.2⟩
  · intro bytes hlen hb
    have h := doubleLimbs_bytes 0x425 4 (by omega) (by norm_num) bytes
      (by omega) hb
    norm_num at h
    exact ⟨h.1, h.2⟩

/-- Witness for C4: the 8-byte block `80 00 … 00` (top bit set, so the
`0x1B` reduction fires), applied through the theorem itself. -/
theorem dbl_constants_spec_witness :
    baseVal 256 (double8 [0x80, 0, 0, 0, 0, 0, 0, 0]) =
      ((2 * baseVal 256 [0x80, 0, 0, 0, 0, 0, 0, 0]) % 2 ^ 64) ^^^
        (if 2 ^ 63 ≤ baseVal 256 [0x80, 0, 0, 0, 0, 0, 0, 0] then 0x1B
          else 0) ∧
    (double8 [0x80, 0, 0, 0, 0, 0, 0, 0]).length = 8 :=
  dbl_constants_spec.1 [0x80, 0, 0, 0, 0, 0, 0, 0] (by decide) (by decide)

/-! ## KMAC integer encodings (`kmac/src/encoding.rs`)

`num_encoding_size` is `(64 - (num | 1).leading_zeros()).div_ceil(8)`;
`bitLenAux 64 x` models the bit length `64 - clz(x)` of a `u64`.
`left_encode`/`right_encode` copy `num.to_be_bytes()[8 - size..]` next to
the count byte. -/

def bitLenAux : Nat → Nat → Nat
  | 0, _ => 0
  | k + 1, x => if x = 0 then 0 else bitLenAux k (x / 2) + 1

def u64LeadingZeros (x : Nat) : Nat := 64 - bitLenAux 64 x

def num_encoding_size (num : Nat) : Nat :=
  (64 - u64LeadingZeros (num ||| 1) + 7) / 8

def leftEncode (num : Nat) : List Nat :=
  num_encoding_size num ::
    (beBytesFixed 8 num).drop (8 - num_encoding_size num)

def rightEncode (num : Nat) : List Nat :=
  (beBytesFixed 8 num).drop (8 - num_encoding_size num) ++
    [num_encoding_size num]

/-- The minimal big-endian byte representation of a natural number (one
zero byte for 0). -/
def minBeBytes (n : Nat) : List Nat :=
  if n < 256 then [n] else minBeBytes (n / 256) ++ [n % 256]
termination_by n
decreasing_by
  exact Nat.div_lt_self (by omega) (by omega)

theorem bitLenAux_zero (k : Nat) : bitLenAux k 0 = 0 := by
  cases k <;> rfl

theorem bitLenAux_bounds : ∀ (k x : Nat), x < 2 ^ k → 1 ≤ x →
    1 ≤ bitLenAux k x ∧ 2 ^ (bitLenAux k x - 1) ≤ x ∧
      x < 2 ^ bitLenAux k x := by
  intro k
  induction k with
  | zero =>
    intro x hx h1
    simp at hx
    omega
  | succ k ih =>
    intro x hx h1
    show 1 ≤ (if x = 0 then 0 else bitLenAux k (x / 2) + 1) ∧
      2 ^ ((if x = 0 then 0 else bitLenAux k (x / 2) + 1) - 1) ≤ x ∧
      x < 2 ^ (if x = 0 then 0 else bitLenAux k (x / 2) + 1)
    rw [if_neg (by omega)]
    by_cases hx1 : x = 1
    · subst hx1
      rw [show (1 : Nat) / 2 = 0 from rfl, bitLenAux_zero]
      norm_num
    · have hd1 : 1 ≤ x / 2 := by omega
      have hpow : (2 : Nat) ^ (k + 1) = 2 * 2 ^ k := by
        rw [pow_succ']
      have hdlt : x / 2 < 2 ^ k := by omega
      obtain ⟨ih1, ih2, ih3⟩ := ih (x / 2) hdlt hd1
      refine ⟨by omega, ?_, ?_⟩
      · simp only [Nat.add_sub_cancel]
        have hb : (2 : Nat) ^ bitLenAux k (x / 2) =
            2 * 2 ^ (bitLenAux k (x / 2) - 1) := by
          rw [← pow_succ']
          congr 1
          omega
        omega
      · have h2b : (2 : Nat) ^ (bitLenAux k (x / 2) + 1) =
            2 * 2 ^ bitLenAux k (x / 2) := by
          rw [pow_succ']
        omega

theorem bitLenAux_le (k x : Nat) (hx : x < 2 ^ k) : bitLenAux k x ≤ k := by
  by_cases h1 : 1 ≤ x
  · obtain ⟨hb1, hb2, _⟩ := bitLenAux_bounds k x hx h1
    by_contra hcon
    have hk1 : k ≤ bitLenAux k x - 1 := by omega
    have := Nat.pow_le_pow_right (show 1 ≤ 2 by omega) hk1
    omega
  · have : x = 0 := by omega
    subst this
    rw [bitLenAux_zero]
    omega

theorem or_one_eq (n : Nat) : n ||| 1 = 2 * (n / 2) + 1 := by
  have hd : (n ||| 1) / 2 = n / 2 := by
    rw [Nat.or_div_two]
    norm_num
  have hm : (n ||| 1) % 2 = 1 := by
    rw [Nat.mod_two_eq_one_iff_testBit_zero, Nat.testBit_or]
    simp
  omega

/-- `num_encoding_size` computes a byte count `s ∈ [1, 8]` with
`num < 256^s`, minimal in the sense that `s = 1` or `256^(s-1) ≤ num`. -/
theorem encSize_char (num : Nat) (h64 : num < 2 ^ 64) :
    1 ≤ num_encoding_size num ∧ num_encoding_size num ≤ 8 ∧
    num < 256 ^ num_encoding_size num ∧
    (num_encoding_size num = 1 ∨ 256 ^ (num_encoding_size num - 1) ≤ num) := by
  have hor := or_one_eq num
  have hy1 : 1 ≤ num ||| 1 := by omega
  have hylt : num ||| 1 < 2 ^ 64 := by
    have he : (2 : Nat) ^ 64 = 2 * 2 ^ 63 := by norm_num
    omega
  obtain ⟨hb1, hb2, hb3⟩ := bitLenAux_bounds 64 (num ||| 1) hylt hy1
  have hble : bitLenAux 64 (num ||| 1) ≤ 64 := bitLenAux_le 64 _ hylt
  set b := bitLenAux 64 (num ||| 1) with hbdef
  have hs : num_encoding_size num = (b + 7) / 8 := by
    unfold num_encoding_size u64LeadingZeros
    omega
  refine ⟨by omega, by omega, ?_, ?_⟩
  · have hpow : (256 : Nat) ^ ((b + 7) / 8) = 2 ^ (8 * ((b + 7) / 8)) := by
      rw [show (256 : Nat) = 2 ^ 8 from by norm_num, ← pow_mul]
    have hble8 : b ≤ 8 * ((b + 7) / 8) := by omega
    have hmono := Nat.pow_le_pow_right (show 1 ≤ 2 by omega) hble8
    rw [hs, hpow]
    omega
  · by_cases hone : (b + 7) / 8 = 1
    · left
      omega
    · right
      have h8s : 8 * ((b + 7) / 8 - 1) ≤ b - 1 := by omega
      have hpow : (256 : Nat) ^ ((b + 7) / 8 - 1) =
          2 ^ (8 * ((b + 7) / 8 - 1)) := by
        rw [show (256 : Nat) = 2 ^ 8 from by norm_num, ← pow_mul]
      have hmono := Nat.pow_le_pow_right (show 1 ≤ 2 by omega) h8s
      have heven : (2 : Nat) ^ (8 * ((b + 7) / 8 - 1)) =
          2 * 2 ^ (8 * ((b + 7) / 8 - 1) - 1) := by
        rw [← pow_succ']
        congr 1
        omega
      rw [hs, hpow]
      omega

/-- The recursive minimal representation satisfies the same
characterisation. -/
theorem minBeBytes_char : ∀ n : Nat,
    1 ≤ (minBeBytes n).length ∧ n < 256 ^ (minBeBytes n).length ∧
    ((minBeBytes n).length = 1 ∨ 256 ^ ((minBeBytes n).length - 1) ≤ n) := by
  intro n
  induction n using Nat.strongRecOn with
  | ind n ih =>
    rw [minBeBytes]
    by_cases h : n < 256
    · rw [if_pos h]
      refine ⟨by simp, by simpa using h, Or.inl (by simp)⟩
    · rw [if_neg h]
      obtain ⟨ih1, ih2, ih3⟩ := ih (n / 256)
        (Nat.div_lt_self (by omega) (by omega))
      have hlen : (minBeBytes (n / 256) ++ [n % 256]).length =
          (minBeBytes (n / 256)).length + 1 := by
        simp
      refine ⟨by simp, ?_, ?_⟩
      · rw [hlen]
        have hpow : (256 : Nat) ^ ((minBeBytes (n / 256)).length + 1) =
            256 * 256 ^ (minBeBytes (n / 256)).length := by
          rw [pow_succ']
        omega
      · right
        rw [hlen, Nat.add_sub_cancel]
        rcases ih3 with h1 | h1
        · rw [h1, pow_one]
          omega
        · have hpw : (256 : Nat) ^ (minBeBytes (n / 256)).length =
              256 * 256 ^ ((minBeBytes (n / 256)).length - 1) := by
            rw [← pow_succ']
            congr 1
            omega
          omega

theorem encSize_eq_minLen (num : Nat) (h64 : num < 2 ^ 64) :
    num_encoding_size num = (minBeBytes num).length := by
  obtain ⟨hs1, hs8, hslt, hsge⟩ := encSize_char num h64
  obtain ⟨hm1, hmlt, hmge⟩ := minBeBytes_char num
  by_contra hne
  rcases Nat.lt_or_ge (num_encoding_size num) (minBeBytes num).length with
    hlt | hge
  · rcases hmge with h1 | h1
    · omega
    · have : (256 : Nat) ^ num_encoding_size num ≤
          256 ^ ((minBeBytes num).length - 1) :=
        Nat.pow_le_pow_right (by omega) (by omega)
      omega
  · have hgt : (minBeBytes num).length < num_encoding_size num := by omega
    rcases hsge with h1 | h1
    · omega
    · have : (256 : Nat) ^ (minBeBytes num).length ≤
          256 ^ (num_encoding_size num - 1) :=
        Nat.pow_le_pow_right (by omega) (by omega)
      omega

theorem beBytesFixed_of_zero (k : Nat) :
    beBytesFixed k 0 = List.replicate k 0 := by
  induction k with
  | zero => rfl
  | succ k ih =>
    show beBytesFixed k (0 / 256) ++ [0 % 256] = _
    rw [show (0 : Nat) / 256 = 0 from rfl, ih,
      show (0 : Nat) % 256 = 0 from rfl, ← List.replicate_succ']

/-- The fixed-width encoding of a value fitting in `s` bytes is `k - s`
leading zero bytes followed by the `s`-byte encoding. -/
theorem beBytesFixed_split : ∀ (k s n : Nat), s ≤ k → n < 256 ^ s →
    beBytesFixed k n = List.replicate (k - s) 0 ++ beBytesFixed s n := by
  intro k
  induction k with
  | zero =>
    intro s n hs _
    have : s = 0 := by omega
    subst this
    rfl
  | succ k ih =>
    intro s n hs hn
    cases s with
    | zero =>
      have hn0 : n = 0 := by
        norm_num at hn
        omega
      subst hn0
      rw [beBytesFixed_of_zero]
      show List.replicate (k + 1) 0 = List.replicate (k + 1 - 0) 0 ++ []
      simp
    | succ s =>
      show beBytesFixed k (n / 256) ++ [n % 256] =
        List.replicate (k + 1 - (s + 1)) 0 ++
          (beBytesFixed s (n / 256) ++ [n % 256])
      have hdiv : n / 256 < 256 ^ s := by
        have hp : (256 : Nat) ^ (s + 1) = 256 * 256 ^ s := by
          rw [pow_succ']
        omega
      rw [ih s (n / 256) (by omega) hdiv,
        show k + 1 - (s + 1) = k - s from by omega, List.append_assoc]

theorem minBeBytes_eq_fixed : ∀ n : Nat,
    beBytesFixed ((minBeBytes n).length) n = minBeBytes n := by
  intro n
  induction n using Nat.strongRecOn with
  | ind n ih =>
    rw [minBeBytes]
    by_cases h : n < 256
    · rw [if_pos h]
      show beBytesFixed 0 (n / 256) ++ [n % 256] = [n]
      rw [show beBytesFixed 0 (n / 256) = [] from rfl, Nat.mod_eq_of_lt h]
      rfl
    · rw [if_neg h]
      have ihm := ih (n / 256) (Nat.div_lt_self (by omega) (by omega))
      have hlen : (minBeBytes (n / 256) ++ [n % 256]).length =
          (minBeBytes (n / 256)).length + 1 := by
        simp
      rw [hlen]
      show beBytesFixed ((minBeBytes (n / 256)).length) (n / 256) ++
        [n % 256] = minBeBytes (n / 256) ++ [n % 256]
      rw [ihm]

/-- C8: for every `num < 2^64`, `left_encode` is the minimal big-endian
byte representation of `num` preceded by the count of value bytes, and
`right_encode` is the value bytes followed by the count byte; at 0 the
value part is the single zero byte with count 1. -/
theorem kmac_encode_spec (num : Nat) (h64 : num < 2 ^ 64) :
    leftEncode num = (minBeBytes num).length :: minBeBytes num ∧
    rightEncode num = minBeBytes num ++ [(minBeBytes num).length] := by
  have hs := encSize_eq_minLen num h64
  obtain ⟨hs1, hs8, hslt, _⟩ := encSize_char num h64
  have hdrop : (beBytesFixed 8 num).drop (8 - num_encoding_size num) =
      minBeBytes num := by
    rw [beBytesFixed_split 8 (num_encoding_size num) num (by omega) hslt,
      List.drop_left' (by simp), hs, minBeBytes_eq_fixed]
  constructor
  · unfold leftEncode
    rw [hdrop, hs]
  · unfold rightEncode
    rw [hdrop, hs]

/-- Witness for C8 at `num = 0`: the NIST encodings of zero. -/
theorem kmac_encode_spec_witness :
    leftEncode 0 = [1, 0] ∧ rightEncode 0 = [0, 1] := by
  have h := kmac_encode_spec 0 (by norm_num)
  have hm : minBeBytes 0 = [0] := by
    rw [minBeBytes]
    norm_num
  rw [hm] at h
  simpa using h

/-! ## KMAC construction (`kmac/src/kmac.rs`)

`KmacCore::new_customization` initialises a cSHAKE core with the
customization string and absorbs the bytepad framing
`left_encode(block_size) ‖ left_encode(8·|key|) ‖ key` through an eager
buffer, finishing with `buffer.pad_with_zeros()` (one zero-padded block).
The model records the customization and the byte stream absorbed into the
core.  `new_from_slice` wraps the result in `Ok` for every key slice. -/

structure KmacState where
  cust : List Nat
  absorbed : List Nat
deriving DecidableEq

structure InvalidLength where
deriving DecidableEq

def kmacNewCustomization (n : Nat) (key cust : List Nat) : KmacState :=
  let data := leftEncode n ++ leftEncode (8 * key.length) ++ key
  let pos := data.length % n
  { cust := cust, absorbed := data ++ List.replicate (n - pos) 0 }

def kmacNewFromSlice (n : Nat) (key : List Nat) :
    Except InvalidLength KmacState :=
  Except.ok (kmacNewCustomization n key [])

/-- C10: `new_from_slice` succeeds for every key length — empty, shorter or
longer than the block size — returning the state built by
`new_customization`: the key is framed by the length-prefixed bytepad
encoding (`left_encode(block_size) ‖ left_encode(8·key_len) ‖ key`, zero
padded to a block boundary) instead of being checked against a required
fixed size. -/
theorem kmac_new_from_slice_ok (n : Nat) (key : List Nat) (hn : 0 < n) :
    kmacNewFromSlice n key = Except.ok (kmacNewCustomization n key []) ∧
    (kmacNewCustomization n key []).absorbed =
      leftEncode n ++ leftEncode (8 * key.length) ++ key ++
        List.replicate
          (n -
            (leftEncode n ++ leftEncode (8 * key.length) ++ key).length % n)
          0 ∧
    (kmacNewCustomization n key []).absorbed.length % n = 0 := by
  refine ⟨rfl, rfl, ?_⟩
  show ((leftEncode n ++ leftEncode (8 * key.length) ++ key) ++
      List.replicate
        (n - (leftEncode n ++ leftEncode (8 * key.length) ++ key).length % n)
        0).length % n = 0
  rw [List.length_append, List.length_replicate]
  have hdm := Nat.div_add_mod
    (leftEncode n ++ leftEncode (8 * key.length) ++ key).length n
  have hml := Nat.mod_lt
    (leftEncode n ++ leftEncode (8 * key.length) ++ key).length hn
  have h1 : (leftEncode n ++ leftEncode (8 * key.length) ++ key).length +
      (n -
        (leftEncode n ++ leftEncode (8 * key.length) ++ key).length % n) =
      n * ((leftEncode n ++ leftEncode (8 * key.length) ++ key).length / n) +
        n := by
    omega
  rw [h1,
    show n * ((leftEncode n ++ leftEncode (8 * key.length) ++ key).length /
        n) + n =
      n * ((leftEncode n ++ leftEncode (8 * key.length) ++ key).length / n +
        1) from by ring,
    Nat.mul_mod_right]

/-- Witness for C10: block size 168 (KMAC128) and the empty key. -/
theorem kmac_new_from_slice_ok_witness :
    kmacNewFromSlice 168 [] = Except.ok (kmacNewCustomization 168 [] []) ∧
    (kmacNewCustomization 168 [] []).absorbed =
      leftEncode 168 ++ leftEncode (8 * ([] : List Nat).length) ++ [] ++
        List.replicate
          (168 -
            (leftEncode 168 ++ leftEncode (8 * ([] : List Nat).length) ++
              ([] : List Nat)).length % 168)
          0 ∧
    (kmacNewCustomization 168 [] []).absorbed.length % 168 = 0 :=
  kmac_new_from_slice_ok 168 [] (by decide)
